import Mathlib

/-!
Verification development for the streaming sentence-segmentation and
synchronized-synthesis pipeline of the mahoupao repository, together with
the SSE stream client found in `video-analysis-web/src/api/index.ts`.

The core pipeline sources (`video-analysis-soul/common/utils/text.py`,
`video-analysis-soul/core/engine.py`, `video-analysis-soul/common/config.py`)
are referenced by the repository's development notes but are not part of the
checked-in tree, so those components are modelled from the specification
(each such definition carries a doc comment starting `Modelled from the
spec:`).  The SSE client is embedded directly from the TypeScript source.

Text is modelled as `List Char`; a token chunk is a `List Char`; a token
stream is a `List (List Char)`.  A single response turn (one group) is
modelled; the `groupId` component of bubble identities is constant within a
turn and therefore omitted.
-/

namespace Mahoupao

/-! ## Boundary Detector (spec §4.1, `find_sentence_boundary` in text.py) -/

/-- Whitespace test used by the numbered-list pattern (the spec's
regex lookahead skips whitespace, modelled after the `\s` class). -/
def isWsChar (c : Char) : Bool :=
  c == ' ' || c == '\t' || c == '\n' || c == '\r' || c == '\x0b' || c == '\x0c'

/-- Delimiters accepted after the digits of a numbered-list item,
from the pattern `\n(?=\s*\d+[.、)）]\s*)`. -/
def isListDelim (c : Char) : Bool :=
  c == '.' || c == '、' || c == ')' || c == '）'

/-- Modelled from the spec: the lookahead of the numbered-list pattern.
After optional whitespace there must be at least one digit followed by a
list delimiter. -/
def startsNumberedItem (cs : List Char) : Bool :=
  let rest := cs.dropWhile isWsChar
  let ds := rest.takeWhile Char.isDigit
  !ds.isEmpty &&
    (match rest.drop ds.length with
     | d :: _ => isListDelim d
     | [] => false)

/-- Sentence-final stop punctuation (tier 3): period, full-width period. -/
def stopChar (c : Char) : Bool := c == '。' || c == '.'

/-- Semicolon / ellipsis class (tier 4). -/
def semiChar (c : Char) : Bool := c == '；' || c == ';' || c == '…'

/-- Exclamation / question mark class (tier 5). -/
def bangChar (c : Char) : Bool := c == '！' || c == '？' || c == '!' || c == '?'

/-- Comma-class punctuation (tier 7 fallback). -/
def commaChar (c : Char) : Bool := c == '，' || c == '、' || c == '：' || c == ','

/-- Modelled from the spec: whether boundary tier `t` (0-based, priority
order) matches the accumulated text `s` at offset `i`.  Tier 0 is the
numbered-list line break, tier 1 the paragraph break, tier 2 stop
punctuation, tier 3 semicolon/ellipsis, tier 4 exclamation/question,
tier 5 a bare newline, tier 6 comma-class fallback. -/
def tierAt (t : Nat) (s : List Char) (i : Nat) : Bool :=
  match s.get? i with
  | none => false
  | some c =>
    match t with
    | 0 => c == '\n' && startsNumberedItem (s.drop (i + 1))
    | 1 => c == '\n' && (s.get? (i + 1) == some '\n')
    | 2 => stopChar c
    | 3 => semiChar c
    | 4 => bangChar c
    | 5 => c == '\n'
    | _ => commaChar c

/-- Modelled from the spec: the minimum accumulated length before tier `t`
may fire.  Tiers 0 and 1 fire at the caller's length floor (`minLen`,
about 8 characters); the remaining floors are fixed policy constants. -/
def tierFloor (minLen : Nat) : Nat → Nat
  | 0 => minLen
  | 1 => minLen
  | 2 => 20
  | 3 => 30
  | 4 => 80
  | 5 => 20
  | _ => 80

/-- First index `i` in `[start, start + fuel)` satisfying `p`, scanning
forward. -/
def firstMatchFrom (p : Nat → Bool) : Nat → Nat → Option Nat
  | 0, _ => none
  | fuel + 1, start => if p start then some start else firstMatchFrom p fuel (start + 1)

/-- Earliest index `i < n` satisfying `p`. -/
def firstMatch (p : Nat → Bool) (n : Nat) : Option Nat :=
  firstMatchFrom p n 0

/-- Modelled from the spec: scan tier `t` over the whole accumulated text,
but only once the accumulated length has reached the tier's floor. -/
def tryTier (s : List Char) (minLen t : Nat) : Option Nat :=
  if tierFloor minLen t ≤ s.length then firstMatch (tierAt t s) s.length else none

/-- Try tiers `t0, t0+1, ...` in priority order, `fuel` of them. -/
def tierCascade (s : List Char) (minLen : Nat) : Nat → Nat → Option Nat
  | 0, _ => none
  | fuel + 1, t0 =>
    match tryTier s minLen t0 with
    | some k => some k
    | none => tierCascade s minLen fuel (t0 + 1)

/-- Modelled from the spec: `find_sentence_boundary` of
`video-analysis-soul/common/utils/text.py` (absent from the checked-in
tree).  Given the text accumulated for the current open bubble and the
minimum-length floor, return the earliest qualifying match of the
highest-priority tier found by a forward scan, or `none`. -/
def find_sentence_boundary (s : List Char) (minLen : Nat) : Option Nat :=
  tierCascade s minLen 7 0

/-! ### Characterization of the boundary detector -/

theorem firstMatchFrom_eq_some {p : Nat → Bool} :
    ∀ {fuel start k : Nat}, firstMatchFrom p fuel start = some k ↔
      (start ≤ k ∧ k < start + fuel ∧ p k = true ∧
        ∀ j, start ≤ j → j < k → p j = false) := by
  intro fuel
  induction fuel with
  | zero => intro start k; simp [firstMatchFrom]; omega
  | succ n ih =>
    intro start k
    simp only [firstMatchFrom]
    by_cases h : p start = true
    · simp only [h, if_true]
      constructor
      · rintro hk
        cases hk
        exact ⟨Nat.le_refl _, by omega, h, fun j h1 h2 => absurd h1 (by omega)⟩
      · rintro ⟨h1, _, h3, h4⟩
        rcases Nat.lt_or_ge start k with hlt | hge
        · exact absurd (h4 start (Nat.le_refl _) hlt) (by simp [h])
        · have : k = start := Nat.le_antisymm (Nat.le_of_lt_succ (by omega)) h1
          simp [this]
    · have h' : p start = false := by
        cases hp : p start
        · rfl
        · exact absurd hp h
      simp only [h', if_false, Bool.false_eq_true, ih]
      constructor
      · rintro ⟨h1, h2, h3, h4⟩
        refine ⟨by omega, by omega, h3, fun j hj1 hj2 => ?_⟩
        rcases Nat.eq_or_lt_of_le hj1 with rfl | hj
        · exact h'
        · exact h4 j hj hj2
      · rintro ⟨h1, h2, h3, h4⟩
        have hks : start ≠ k := by
          rintro rfl; simp [h3] at h'
        refine ⟨by omega, by omega, h3, fun j hj1 hj2 => h4 j (by omega) hj2⟩

theorem firstMatchFrom_eq_none {p : Nat → Bool} :
    ∀ {fuel start : Nat}, firstMatchFrom p fuel start = none ↔
      ∀ j, start ≤ j → j < start + fuel → p j = false := by
  intro fuel
  induction fuel with
  | zero => intro start; simp [firstMatchFrom]; omega
  | succ n ih =>
    intro start
    simp only [firstMatchFrom]
    by_cases h : p start = true
    · simp only [h, if_true]
      constructor
      · intro hc; cases hc
      · intro hall
        exact absurd (hall start (Nat.le_refl _) (by omega)) (by simp [h])
    · have h' : p start = false := by
        cases hp : p start
        · rfl
        · exact absurd hp h
      simp only [h', if_false, Bool.false_eq_true, ih]
      constructor
      · intro hall j hj1 hj2
        rcases Nat.eq_or_lt_of_le hj1 with rfl | hj
        · exact h'
        · exact hall j hj (by omega)
      · intro hall j hj1 hj2
        exact hall j (by omega) (by omega)

theorem firstMatch_eq_some {p : Nat → Bool} {n k : Nat} :
    firstMatch p n = some k ↔
      (k < n ∧ p k = true ∧ ∀ j, j < k → p j = false) := by
  unfold firstMatch
  rw [firstMatchFrom_eq_some]
  constructor
  · rintro ⟨_, h2, h3, h4⟩
    exact ⟨by omega, h3, fun j hj => h4 j (Nat.zero_le _) hj⟩
  · rintro ⟨h1, h2, h3⟩
    exact ⟨Nat.zero_le _, by omega, h2, fun j _ hj => h3 j hj⟩

theorem firstMatch_eq_none {p : Nat → Bool} {n : Nat} :
    firstMatch p n = none ↔ ∀ j, j < n → p j = false := by
  unfold firstMatch
  rw [firstMatchFrom_eq_none]
  constructor
  · intro h j hj; exact h j (Nat.zero_le _) (by omega)
  · intro h j _ hj; exact h j (by omega)

/-- A tier never matches at an out-of-range offset. -/
theorem tierAt_oob {t : Nat} {s : List Char} {i : Nat} (h : s.length ≤ i) :
    tierAt t s i = false := by
  unfold tierAt
  rw [List.get?_eq_none.mpr h]

theorem tryTier_eq_some {s : List Char} {m t k : Nat} :
    tryTier s m t = some k ↔
      (tierFloor m t ≤ s.length ∧ tierAt t s k = true ∧
        ∀ j, j < k → tierAt t s j = false) := by
  unfold tryTier
  by_cases h : tierFloor m t ≤ s.length
  · rw [if_pos h, firstMatch_eq_some]
    constructor
    · rintro ⟨_, h2, h3⟩; exact ⟨h, h2, h3⟩
    · rintro ⟨_, h2, h3⟩
      have hk : k < s.length := by
        by_contra hk
        rw [tierAt_oob (by omega)] at h2
        cases h2
      exact ⟨hk, h2, h3⟩
  · rw [if_neg h]
    constructor
    · intro hc; cases hc
    · rintro ⟨h1, _, _⟩; exact absurd h1 h

theorem tryTier_eq_none {s : List Char} {m t : Nat} :
    tryTier s m t = none ↔
      (s.length < tierFloor m t ∨ ∀ j, tierAt t s j = false) := by
  unfold tryTier
  by_cases h : tierFloor m t ≤ s.length
  · rw [if_pos h, firstMatch_eq_none]
    constructor
    · intro hall
      right
      intro j
      rcases Nat.lt_or_ge j s.length with hj | hj
      · exact hall j hj
      · exact tierAt_oob hj
    · rintro (hlt | hall)
      · omega
      · intro j _; exact hall j
  · rw [if_neg h]
    constructor
    · intro _; left; omega
    · intro _; rfl

theorem tierCascade_eq_some {s : List Char} {m : Nat} :
    ∀ {fuel t0 k : Nat}, tierCascade s m fuel t0 = some k ↔
      ∃ t, t0 ≤ t ∧ t < t0 + fuel ∧ tryTier s m t = some k ∧
        ∀ u, t0 ≤ u → u < t → tryTier s m u = none := by
  intro fuel
  induction fuel with
  | zero =>
    intro t0 k
    simp [tierCascade]
    omega
  | succ n ih =>
    intro t0 k
    simp only [tierCascade]
    cases htry : tryTier s m t0 with
    | some k0 =>
      constructor
      · rintro hk
        cases hk
        exact ⟨t0, Nat.le_refl _, by omega, htry,
          fun u h1 h2 => absurd h1 (by omega)⟩
      · rintro ⟨t, h1, h2, h3, h4⟩
        rcases Nat.eq_or_lt_of_le h1 with rfl | hlt
        · rw [htry] at h3; cases h3; rfl
        · rw [h4 t0 (Nat.le_refl _) hlt] at htry; cases htry
    | none =>
      rw [ih]
      constructor
      · rintro ⟨t, h1, h2, h3, h4⟩
        refine ⟨t, by omega, by omega, h3, fun u hu1 hu2 => ?_⟩
        rcases Nat.eq_or_lt_of_le hu1 with rfl | hu
        · exact htry
        · exact h4 u hu hu2
      · rintro ⟨t, h1, h2, h3, h4⟩
        have ht0 : t0 ≠ t := by
          rintro rfl; rw [htry] at h3; cases h3
        exact ⟨t, by omega, by omega, h3, fun u hu1 hu2 => h4 u (by omega) hu2⟩

/-- C3 (core characterization): the detector returns `some k` exactly when
`k` is the earliest offset matching some tier `t ≤ 6` whose length floor
has been reached, while every higher-priority tier either has an unmet
floor or matches nowhere. -/
theorem find_sentence_boundary_eq_some (s : List Char) (m k : Nat) :
    find_sentence_boundary s m = some k ↔
      ∃ t, t ≤ 6 ∧ tierFloor m t ≤ s.length ∧ tierAt t s k = true ∧
        (∀ j, j < k → tierAt t s j = false) ∧
        (∀ u, u < t → s.length < tierFloor m u ∨ ∀ j, tierAt u s j = false) := by
  unfold find_sentence_boundary
  rw [tierCascade_eq_some]
  constructor
  · rintro ⟨t, _, h2, h3, h4⟩
    rw [tryTier_eq_some] at h3
    exact ⟨t, by omega, h3.1, h3.2.1, h3.2.2,
      fun u hu => (tryTier_eq_none.mp (h4 u (Nat.zero_le _) hu))⟩
  · rintro ⟨t, h1, h2, h3, h4, h5⟩
    exact ⟨t, Nat.zero_le _, by omega, tryTier_eq_some.mpr ⟨h2, h3, h4⟩,
      fun u _ hu => tryTier_eq_none.mpr (h5 u hu)⟩

/-! ## Event protocol and Stream Orchestrator (spec §4.4, §6; engine.py) -/

/-- Wire events of one turn (spec §6).  The `groupId` is constant within a
turn and omitted.  `start` is `message_start`, `tok` is `token`, `fin` is
`sentence_end`, `audio` an audio result, `errS` a per-bubble synthesis
error, `errTurn` a turn-level producer error, `done` the terminal event
with aggregate counts. -/
inductive Ev where
  | start (sid : Nat)
  | tok (sid : Nat) (text : List Char)
  | fin (sid : Nat)
  | audio (sid : Nat)
  | errS (sid : Nat)
  | errTurn
  | done (succeeded failed : Nat)
  deriving DecidableEq, Repr

/-- Modelled from the spec: `StreamingConfig` of
`video-analysis-soul/common/config.py` (absent from the checked-in tree):
the minimum-length floor handed to the Boundary Detector and the bubble
cap `max_bubbles` (default 4). -/
structure StreamCfg where
  minLen : Nat
  maxBubbles : Nat
  deriving DecidableEq, Repr

/-- Orchestrator state while streaming: current bubble identity, the text
accumulated for the current open bubble, the texts already submitted to
synthesis (index = bubble identity), and the events emitted so far. -/
structure OrchState where
  sid : Nat
  buf : List Char
  fin : List (List Char)
  evs : List Ev
  deriving DecidableEq, Repr

/-- State after the first token is awaited: bubble 0 is opened. -/
def initState : OrchState :=
  { sid := 0, buf := [], fin := [], evs := [Ev.start 0] }

/-- Modelled from the spec: one token chunk arriving while `STREAMING`
(engine.py token-split step, absent from the checked-in tree).  The chunk
is appended to the current bubble's buffer and the Boundary Detector is
invoked — unless the current bubble is the last one allowed by the cap, in
which case boundary detection is skipped for it.  On a boundary at offset
`k` the just-appended chunk is split at the position corresponding to
`k + 1`; if that position falls before the chunk (a `ProtocolViolation`,
spec §7), the split is dropped and the whole chunk is appended to the
current bubble. -/
def stepChunk (cfg : StreamCfg) (st : OrchState) (chunk : List Char) : OrchState :=
  let old := st.buf
  let buf2 := old ++ chunk
  match (if st.sid + 1 < cfg.maxBubbles
         then find_sentence_boundary buf2 cfg.minLen else none) with
  | none => { st with buf := buf2, evs := st.evs ++ [Ev.tok st.sid chunk] }
  | some k =>
    if k + 1 < old.length then
      { st with buf := buf2, evs := st.evs ++ [Ev.tok st.sid chunk] }
    else
      let sp := k + 1 - old.length
      let pre := chunk.take sp
      let suf := chunk.drop sp
      { sid := st.sid + 1
        buf := suf
        fin := st.fin ++ [old ++ pre]
        evs := st.evs ++ [Ev.tok st.sid pre, Ev.fin st.sid,
                          Ev.start (st.sid + 1), Ev.tok (st.sid + 1) suf] }

/-- The streaming phase: fold the token chunks through `stepChunk`. -/
def runStream (cfg : StreamCfg) (chunks : List (List Char)) : OrchState :=
  chunks.foldl (stepChunk cfg) initState

/-- The texts submitted to synthesis over a completed turn: the mid-stream
finalizations followed by the last bubble, finalized at turn end. -/
def finalTexts (cfg : StreamCfg) (chunks : List (List Char)) : List (List Char) :=
  (runStream cfg chunks).fin ++ [(runStream cfg chunks).buf]

/-- Synthesis outcome event for bubble `i`: audio on success, a per-bubble
error otherwise (`res` is the backend's success oracle). -/
def outcomeEv (res : Nat → Bool) (i : Nat) : Ev :=
  if res i then Ev.audio i else Ev.errS i

/-- Number of successes among bubbles `0..n-1`. -/
def countTrue (res : Nat → Bool) (n : Nat) : Nat :=
  ((List.range n).filter res).length

/-- Modelled from the spec: a completed turn (producer finished normally).
The open bubble is finalized and submitted, each synthesis job resolves —
in completion order `order`, which is any permutation of the bubble
identities — and a terminal `done` event reports aggregate counts. -/
def runComplete (cfg : StreamCfg) (chunks : List (List Char))
    (res : Nat → Bool) (order : List Nat) : List Ev :=
  let st := runStream cfg chunks
  st.evs ++ [Ev.fin st.sid] ++ order.map (outcomeEv res) ++
    [Ev.done (countTrue res (st.sid + 1)) (st.sid + 1 - countTrue res (st.sid + 1))]

/-- Modelled from the spec: a producer error mid-stream aborts the turn: a
terminal turn-level error event is emitted and no further bubble is
finalized. -/
def runProducerError (cfg : StreamCfg) (chunks : List (List Char)) : List Ev :=
  (runStream cfg chunks).evs ++ [Ev.errTurn]

/-- Modelled from the spec: cancelling after `i` chunks stops token
consumption; already-submitted synthesis jobs still resolve (in order
`order`) and a terminal `done` event with partial counts is emitted.  The
open bubble was never submitted, so the counts range over the `sid`
submitted jobs. -/
def runCancelled (cfg : StreamCfg) (chunks : List (List Char)) (i : Nat)
    (res : Nat → Bool) (order : List Nat) : List Ev :=
  let st := runStream cfg (chunks.take i)
  st.evs ++ order.map (outcomeEv res) ++
    [Ev.done (countTrue res st.sid) (st.sid - countTrue res st.sid)]

/-! ### Observations over traces -/

/-- The `token` payloads emitted for bubble `b`, in order. -/
def tokPayloads (b : Nat) (evs : List Ev) : List (List Char) :=
  evs.filterMap fun e =>
    match e with
    | Ev.tok s t => if s = b then some t else none
    | _ => none

/-- Concatenation of the `token` payloads emitted for bubble `b`. -/
def tokConcat (b : Nat) (evs : List Ev) : List Char :=
  (tokPayloads b evs).flatten

/-- The bubble identities of `message_start` events, in emission order. -/
def startSids (evs : List Ev) : List Nat :=
  evs.filterMap fun e =>
    match e with
    | Ev.start s => some s
    | _ => none

/-- The bubble identities of `sentence_end` events, in emission order. -/
def finSids (evs : List Ev) : List Nat :=
  evs.filterMap fun e =>
    match e with
    | Ev.fin s => some s
    | _ => none

/-- Whether an event belongs to bubble `b`. -/
def belongs (b : Nat) : Ev → Bool
  | Ev.start s => s == b
  | Ev.tok s _ => s == b
  | Ev.fin s => s == b
  | Ev.audio s => s == b
  | Ev.errS s => s == b
  | _ => false

/-- The subsequence of a trace belonging to bubble `b`. -/
def bubbleEvs (b : Nat) (evs : List Ev) : List Ev :=
  evs.filter (belongs b)

/-- Whether an event is a `token` event. -/
def isTok : Ev → Bool
  | Ev.tok _ _ => true
  | _ => false

/-- The `token` events of a trace. -/
def tokEvs (evs : List Ev) : List Ev :=
  evs.filter isTok

/-! ### Generic fold invariants and the step-shape lemma -/

theorem foldl_inv {α β : Type _} (f : α → β → α) (P : α → Prop)
    (hstep : ∀ a b, P a → P (f a b)) :
    ∀ (l : List β) (a : α), P a → P (l.foldl f a) := by
  intro l
  induction l with
  | nil => intro a h; exact h
  | cons x xs ih => intro a h; exact ih _ (hstep a x h)

theorem tierAt_true_lt {t : Nat} {s : List Char} {k : Nat}
    (h : tierAt t s k = true) : k < s.length := by
  by_contra hk
  rw [tierAt_oob (by omega)] at h
  cases h

theorem find_sentence_boundary_lt_length {s : List Char} {m k : Nat}
    (h : find_sentence_boundary s m = some k) : k < s.length := by
  rcases (find_sentence_boundary_eq_some s m k).mp h with ⟨t, _, _, h3, _⟩
  exact tierAt_true_lt h3

/-- Every step of the orchestrator either appends the whole chunk to the
current bubble, or performs a split of the just-appended chunk at some
position `sp ≤ chunk.length` (which requires being under the cap). -/
theorem stepChunk_shape (cfg : StreamCfg) (st : OrchState) (c : List Char) :
    stepChunk cfg st c =
      { st with buf := st.buf ++ c, evs := st.evs ++ [Ev.tok st.sid c] } ∨
    ∃ sp, sp ≤ c.length ∧ st.sid + 1 < cfg.maxBubbles ∧
      stepChunk cfg st c =
        { sid := st.sid + 1
          buf := c.drop sp
          fin := st.fin ++ [st.buf ++ c.take sp]
          evs := st.evs ++ [Ev.tok st.sid (c.take sp), Ev.fin st.sid,
                            Ev.start (st.sid + 1), Ev.tok (st.sid + 1) (c.drop sp)] } := by
  simp only [stepChunk]
  by_cases hcap : st.sid + 1 < cfg.maxBubbles
  · rw [if_pos hcap]
    cases hfind : find_sentence_boundary (st.buf ++ c) cfg.minLen with
    | none => left; rfl
    | some k =>
      by_cases hk : k + 1 < st.buf.length
      · left; simp only [hk, if_true]
      · right
        have hlen : k < (st.buf ++ c).length := find_sentence_boundary_lt_length hfind
        rw [List.length_append] at hlen
        refine ⟨k + 1 - st.buf.length, by omega, hcap, ?_⟩
        simp only [hk, if_false]
  · rw [if_neg hcap]
    left; rfl

theorem stepChunk_evs_extend (cfg : StreamCfg) (st : OrchState) (c : List Char) :
    ∃ t, (stepChunk cfg st c).evs = st.evs ++ t := by
  rcases stepChunk_shape cfg st c with h | ⟨sp, _, _, h⟩
  · exact ⟨_, by rw [h]⟩
  · exact ⟨_, by rw [h]⟩

theorem stepChunk_sid_le (cfg : StreamCfg) (st : OrchState) (c : List Char) :
    st.sid ≤ (stepChunk cfg st c).sid ∧ (stepChunk cfg st c).sid ≤ st.sid + 1 := by
  rcases stepChunk_shape cfg st c with h | ⟨sp, _, _, h⟩
  · rw [h]; dsimp; omega
  · rw [h]; dsimp; omega

/-! ### Trace-observation helper lemmas -/

theorem tokPayloads_append (b : Nat) (l1 l2 : List Ev) :
    tokPayloads b (l1 ++ l2) = tokPayloads b l1 ++ tokPayloads b l2 :=
  List.filterMap_append ..

theorem tokConcat_append (b : Nat) (l1 l2 : List Ev) :
    tokConcat b (l1 ++ l2) = tokConcat b l1 ++ tokConcat b l2 := by
  unfold tokConcat
  rw [tokPayloads_append, List.flatten_append]

theorem tokConcat_single_tok (b s : Nat) (t : List Char) :
    tokConcat b [Ev.tok s t] = if s = b then t else [] := by
  by_cases h : s = b <;>
    simp [tokConcat, tokPayloads, List.filterMap, h]

theorem startSids_append (l1 l2 : List Ev) :
    startSids (l1 ++ l2) = startSids l1 ++ startSids l2 :=
  List.filterMap_append ..

theorem finSids_append (l1 l2 : List Ev) :
    finSids (l1 ++ l2) = finSids l1 ++ finSids l2 :=
  List.filterMap_append ..

theorem getD_append_left {α : Type _} (l l2 : List α) (n : Nat) (d : α)
    (h : n < l.length) : (l ++ l2).getD n d = l.getD n d := by
  induction l generalizing n with
  | nil => cases h
  | cons x xs ih =>
    cases n with
    | zero => rfl
    | succ m =>
      rw [List.length_cons] at h
      exact ih m (by omega)

theorem getD_append_length {α : Type _} (l : List α) (x : α) (d : α) :
    (l ++ [x]).getD l.length d = x := by
  induction l with
  | nil => rfl
  | cons y ys ih => simp only [List.cons_append, List.length_cons, List.getD_cons_succ]; exact ih

/-! ### The alignment invariant (C1) -/

/-- The running alignment invariant: the submitted-text list is indexed by
bubble identity, and for every bubble the concatenation of the `token`
payloads emitted so far equals the submitted text (for already-finalized
bubbles), the current buffer (for the open bubble), or nothing. -/
def AlignInv (st : OrchState) : Prop :=
  st.fin.length = st.sid ∧
  ∀ b, tokConcat b st.evs =
    if b < st.sid then st.fin.getD b [] else if b = st.sid then st.buf else []

theorem alignInv_init : AlignInv initState := by
  constructor
  · rfl
  · intro b
    have h0 : tokConcat b [Ev.start 0] = [] := by
      simp [tokConcat, tokPayloads, List.filterMap]
    rw [show initState.evs = [Ev.start 0] from rfl] at *
    rw [h0]
    simp only [initState]
    split
    · omega
    · split <;> simp_all

theorem tokConcat_split_list (b sid : Nat) (pre suf : List Char) :
    tokConcat b [Ev.tok sid pre, Ev.fin sid, Ev.start (sid + 1), Ev.tok (sid + 1) suf] =
      (if sid = b then pre else []) ++ (if sid + 1 = b then suf else []) := by
  by_cases h1 : sid = b <;> by_cases h2 : sid + 1 = b <;>
    simp [tokConcat, tokPayloads, List.filterMap, h1, h2]

theorem alignInv_step (cfg : StreamCfg) (st : OrchState) (c : List Char)
    (h : AlignInv st) : AlignInv (stepChunk cfg st c) := by
  obtain ⟨hlen, hcat⟩ := h
  rcases stepChunk_shape cfg st c with hs | ⟨sp, hsp, hcap, hs⟩
  · rw [hs]
    refine ⟨hlen, fun b => ?_⟩
    rw [tokConcat_append, hcat b, tokConcat_single_tok]
    by_cases hb : b < st.sid
    · have : st.sid ≠ b := by omega
      simp [hb, this]
    · by_cases hb2 : b = st.sid
      · subst hb2
        simp
      · have : st.sid ≠ b := fun hc => hb2 hc.symm
        simp [hb, hb2, this]
  · rw [hs]
    refine ⟨by simp [hlen], fun b => ?_⟩
    show tokConcat b (st.evs ++ [Ev.tok st.sid (c.take sp), Ev.fin st.sid,
        Ev.start (st.sid + 1), Ev.tok (st.sid + 1) (c.drop sp)]) = _
    rw [tokConcat_append, hcat b, tokConcat_split_list]
    by_cases hb : b < st.sid
    · have h1 : st.sid ≠ b := by omega
      have h2 : st.sid + 1 ≠ b := by omega
      have h3 : b < st.sid + 1 := by omega
      simp only [hb, if_true, h1, if_false, h2, h3, List.append_nil]
      exact (getD_append_left _ _ _ _ (by omega)).symm
    · by_cases hb2 : b = st.sid
      · subst hb2
        have e2 : st.sid + 1 ≠ st.sid := by omega
        have e3 : st.sid < st.sid + 1 := by omega
        simp only [lt_self_iff_false, if_false, eq_self_iff_true, if_true,
          e2, e3, List.append_nil]
        rw [← hlen, getD_append_length]
      · by_cases hb3 : b = st.sid + 1
        · subst hb3
          have e1 : ¬ st.sid + 1 < st.sid := by omega
          have e2 : st.sid + 1 ≠ st.sid := by omega
          have e3 : st.sid ≠ st.sid + 1 := by omega
          simp [e1, e2, e3]
        · have h1 : ¬ b < st.sid := hb
          have h2 : st.sid ≠ b := fun hc => hb2 hc.symm
          have h3 : st.sid + 1 ≠ b := fun hc => hb3 hc.symm
          have h4 : ¬ b < st.sid + 1 := by omega
          simp [h1, h2, h3, h4, hb2, hb3]

theorem alignInv_runStream (cfg : StreamCfg) (chunks : List (List Char)) :
    AlignInv (runStream cfg chunks) :=
  foldl_inv _ _ (alignInv_step cfg) chunks initState alignInv_init

/-- C1: for every finalized bubble of a completed turn — under any
partition of the token stream into chunks — the concatenation of the
`token` payloads emitted for that bubble equals exactly the text submitted
to that bubble's synthesis job (out-of-range bubble identities see no
token event at all). -/
theorem alignment_invariant (cfg : StreamCfg) (chunks : List (List Char))
    (res : Nat → Bool) (order : List Nat) (b : Nat) :
    tokConcat b (runComplete cfg chunks res order) = (finalTexts cfg chunks).getD b [] := by
  obtain ⟨hlen, hcat⟩ := alignInv_runStream cfg chunks
  unfold runComplete finalTexts
  rw [tokConcat_append, tokConcat_append, tokConcat_append, hcat b]
  have h1 : tokConcat b [Ev.fin (runStream cfg chunks).sid] = [] := by
    simp [tokConcat, tokPayloads, List.filterMap]
  have h2 : tokConcat b (order.map (outcomeEv res)) = [] := by
    induction order with
    | nil => simp [tokConcat, tokPayloads]
    | cons x xs ih =>
      rw [List.map_cons, show (outcomeEv res x :: xs.map (outcomeEv res)) =
        [outcomeEv res x] ++ xs.map (outcomeEv res) from rfl, tokConcat_append, ih]
      by_cases hx : res x <;> simp [outcomeEv, hx, tokConcat, tokPayloads, List.filterMap]
  have h3 : tokConcat b [Ev.done (countTrue res ((runStream cfg chunks).sid + 1))
      ((runStream cfg chunks).sid + 1 - countTrue res ((runStream cfg chunks).sid + 1))] = [] := by
    simp [tokConcat, tokPayloads, List.filterMap]
  rw [h1, h2, h3, List.append_nil, List.append_nil, List.append_nil]
  set st := runStream cfg chunks
  by_cases hb : b < st.sid
  · simp only [hb, if_true]
    rw [getD_append_left _ _ _ _ (by omega)]
  · by_cases hb2 : b = st.sid
    · subst hb2
      simp only [hb, if_false, if_true]
      rw [← hlen, getD_append_length]
    · simp only [hb, hb2, if_false]
      have hge : st.fin.length + 1 ≤ b := by omega
      rw [List.getD_eq_default]
      simp only [List.length_append, List.length_singleton]
      omega

/-! ### Density, finalization order, and text conservation -/

theorem startSids_single_tok (s : Nat) (t : List Char) :
    startSids [Ev.tok s t] = [] := by
  simp [startSids, List.filterMap]

theorem startSids_split_list (sid : Nat) (pre suf : List Char) :
    startSids [Ev.tok sid pre, Ev.fin sid, Ev.start (sid + 1), Ev.tok (sid + 1) suf] =
      [sid + 1] := by
  simp [startSids, List.filterMap]

theorem finSids_single_tok (s : Nat) (t : List Char) :
    finSids [Ev.tok s t] = [] := by
  simp [finSids, List.filterMap]

theorem finSids_split_list (sid : Nat) (pre suf : List Char) :
    finSids [Ev.tok sid pre, Ev.fin sid, Ev.start (sid + 1), Ev.tok (sid + 1) suf] =
      [sid] := by
  simp [finSids, List.filterMap]

theorem startSids_map_outcome (res : Nat → Bool) (l : List Nat) :
    startSids (l.map (outcomeEv res)) = [] := by
  rw [startSids, List.filterMap_eq_nil_iff]
  intro e he
  rcases List.mem_map.mp he with ⟨x, _, rfl⟩
  by_cases hx : res x <;> simp [outcomeEv, hx]

theorem finSids_map_outcome (res : Nat → Bool) (l : List Nat) :
    finSids (l.map (outcomeEv res)) = [] := by
  rw [finSids, List.filterMap_eq_nil_iff]
  intro e he
  rcases List.mem_map.mp he with ⟨x, _, rfl⟩
  by_cases hx : res x <;> simp [outcomeEv, hx]

/-- Running density invariant: the `message_start` identities emitted so
far are exactly `0, 1, …, sid` in order, and the bubble count respects the
cap. -/
def DensityInv (cfg : StreamCfg) (st : OrchState) : Prop :=
  startSids st.evs = List.range (st.sid + 1) ∧ st.sid + 1 ≤ cfg.maxBubbles

theorem densityInv_step (cfg : StreamCfg) (st : OrchState) (c : List Char)
    (h : DensityInv cfg st) : DensityInv cfg (stepChunk cfg st c) := by
  obtain ⟨h1, h2⟩ := h
  rcases stepChunk_shape cfg st c with hs | ⟨sp, hsp, hcap, hs⟩
  · rw [hs]
    exact ⟨by rw [startSids_append, h1, startSids_single_tok, List.append_nil], h2⟩
  · rw [hs]
    refine ⟨?_, by dsimp; omega⟩
    rw [startSids_append, h1, startSids_split_list, ← List.range_succ]

theorem densityInv_runStream (cfg : StreamCfg) (chunks : List (List Char))
    (h : 1 ≤ cfg.maxBubbles) : DensityInv cfg (runStream cfg chunks) := by
  refine foldl_inv _ _ (densityInv_step cfg) chunks initState ⟨?_, h⟩
  simp [initState, startSids, List.filterMap, List.range_succ]

/-- Running finalization invariant: the `sentence_end` identities emitted
so far are exactly `0, 1, …, sid − 1` in order (the open bubble has not
been finalized). -/
def FinOrderInv (st : OrchState) : Prop :=
  finSids st.evs = List.range st.sid

theorem finOrderInv_step (cfg : StreamCfg) (st : OrchState) (c : List Char)
    (h : FinOrderInv st) : FinOrderInv (stepChunk cfg st c) := by
  rcases stepChunk_shape cfg st c with hs | ⟨sp, hsp, hcap, hs⟩
  · rw [FinOrderInv, hs]
    rw [finSids_append, h, finSids_single_tok, List.append_nil]
  · rw [FinOrderInv, hs]
    rw [finSids_append, h, finSids_split_list, ← List.range_succ]

theorem finOrderInv_runStream (cfg : StreamCfg) (chunks : List (List Char)) :
    FinOrderInv (runStream cfg chunks) := by
  refine foldl_inv _ _ (finOrderInv_step cfg) chunks initState ?_
  simp [initState, FinOrderInv, finSids, List.filterMap]

/-- The text owned by a state: submitted texts plus the open buffer. -/
def textOf (st : OrchState) : List Char :=
  st.fin.flatten ++ st.buf

theorem textOf_step (cfg : StreamCfg) (st : OrchState) (c : List Char) :
    textOf (stepChunk cfg st c) = textOf st ++ c := by
  rcases stepChunk_shape cfg st c with hs | ⟨sp, hsp, hcap, hs⟩
  · rw [hs]; simp [textOf]
  · rw [hs]
    simp only [textOf, List.flatten_append, List.flatten_cons, List.flatten_nil,
      List.append_nil, List.append_assoc]
    rw [List.take_append_drop]

theorem textOf_runStream (cfg : StreamCfg) (chunks : List (List Char)) :
    textOf (runStream cfg chunks) = chunks.flatten := by
  suffices h : ∀ (l : List (List Char)) (st : OrchState),
      textOf (l.foldl (stepChunk cfg) st) = textOf st ++ l.flatten by
    rw [runStream, h]
    simp [textOf, initState]
  intro l
  induction l with
  | nil => intro st; simp
  | cons x xs ih =>
    intro st
    rw [List.foldl_cons, ih, textOf_step, List.flatten_cons, List.append_assoc]

/-- All text ever tokenized lands in the finalized bubbles: the submitted
texts of a turn concatenate to exactly the producer's text. -/
theorem finalTexts_flatten (cfg : StreamCfg) (chunks : List (List Char)) :
    (finalTexts cfg chunks).flatten = chunks.flatten := by
  rw [finalTexts, List.flatten_append, List.flatten_cons, List.flatten_nil,
    List.append_nil]
  exact textOf_runStream cfg chunks

theorem runStream_sid_le (cfg : StreamCfg) (chunks : List (List Char)) :
    (runStream cfg chunks).sid ≤ chunks.length := by
  suffices h : ∀ (l : List (List Char)) (st : OrchState),
      (l.foldl (stepChunk cfg) st).sid ≤ st.sid + l.length by
    have := h chunks initState
    simpa [runStream, initState] using this
  intro l
  induction l with
  | nil => intro st; simp
  | cons x xs ih =>
    intro st
    rw [List.foldl_cons]
    have h1 := (stepChunk_sid_le cfg st x).2
    have h2 := ih (stepChunk cfg st x)
    simp only [List.length_cons]
    omega

/-- C5: in every completed turn, the `message_start` identities form
exactly the contiguous sequence `0, 1, …, k` emitted in creation order,
with `k + 1` at most the bubble cap. -/
theorem density_invariant (cfg : StreamCfg) (chunks : List (List Char))
    (res : Nat → Bool) (order : List Nat) (h : 1 ≤ cfg.maxBubbles) :
    startSids (runComplete cfg chunks res order) =
      List.range ((runStream cfg chunks).sid + 1) ∧
    (runStream cfg chunks).sid + 1 ≤ cfg.maxBubbles := by
  obtain ⟨h1, h2⟩ := densityInv_runStream cfg chunks h
  refine ⟨?_, h2⟩
  rw [runComplete]
  rw [startSids_append, startSids_append, startSids_append, h1,
    startSids_map_outcome]
  have e1 : startSids [Ev.fin (runStream cfg chunks).sid] = [] := by
    simp [startSids, List.filterMap]
  have e2 : startSids [Ev.done (countTrue res ((runStream cfg chunks).sid + 1))
      ((runStream cfg chunks).sid + 1 - countTrue res ((runStream cfg chunks).sid + 1))] = [] := by
    simp [startSids, List.filterMap]
  rw [e1, e2]
  simp

/-- Concrete token stream reused by several witnesses below: three chunks,
each ending in a paragraph break. -/
def cksW : List (List Char) := [['a', '\n', '\n'], ['a', '\n', '\n'], ['a', '\n', '\n']]

/-- Witness for C5 at a concrete run: config with cap 2 and floor 1, three
paragraph-broken chunks, synthesis succeeding only on bubble 0, audio
resolving out of order. -/
theorem density_invariant_witness :
    startSids (runComplete ⟨1, 2⟩ cksW (fun i => i == 0) [1, 0]) = [0, 1] := by
  have h := density_invariant ⟨1, 2⟩ cksW (fun i => i == 0) [1, 0] (by decide)
  exact h.1.trans (by decide)

/-! ### Cap enforcement (C4): simulation against an uncapped run -/

theorem stepChunk_congr (c1 c2 : StreamCfg) (st : OrchState) (c : List Char)
    (hm : c1.minLen = c2.minLen)
    (hd : (st.sid + 1 < c1.maxBubbles) = (st.sid + 1 < c2.maxBubbles)) :
    stepChunk c1 st c = stepChunk c2 st c := by
  by_cases h : st.sid + 1 < c1.maxBubbles
  · have h2 : st.sid + 1 < c2.maxBubbles := hd ▸ h
    simp only [stepChunk, hm, if_pos h, if_pos h2]
  · have h2 : ¬ st.sid + 1 < c2.maxBubbles := by rw [← hd]; exact h
    simp only [stepChunk, hm, if_neg h, if_neg h2]

theorem stepChunk_atCap (cfg : StreamCfg) (st : OrchState) (c : List Char)
    (h : ¬ st.sid + 1 < cfg.maxBubbles) :
    stepChunk cfg st c =
      { st with buf := st.buf ++ c, evs := st.evs ++ [Ev.tok st.sid c] } := by
  simp only [stepChunk, if_neg h]

/-- Simulation relation between a capped run (cap `K`) and a
more-permissive run: both states agree until the capped run enters its
last bubble, after which the capped run stays in bubble `K − 1`. -/
def SimRel (K : Nat) (s1 s2 : OrchState) : Prop :=
  (s1 = s2 ∧ s1.sid + 1 < K) ∨ (s1.sid = K - 1 ∧ K - 1 ≤ s2.sid)

theorem simRel_step (m K K2 : Nat) (hKK : K ≤ K2) (c : List Char)
    (s1 s2 : OrchState) (h : SimRel K s1 s2) :
    SimRel K (stepChunk ⟨m, K⟩ s1 c) (stepChunk ⟨m, K2⟩ s2 c) := by
  rcases h with ⟨rfl, hlt⟩ | ⟨h1, h2⟩
  · have hd : (s1.sid + 1 < K) = (s1.sid + 1 < K2) := by
      apply propext; constructor <;> intro <;> omega
    have heq : stepChunk ⟨m, K⟩ s1 c = stepChunk ⟨m, K2⟩ s1 c :=
      stepChunk_congr _ _ _ _ rfl hd
    by_cases hlt2 : (stepChunk ⟨m, K⟩ s1 c).sid + 1 < K
    · left; exact ⟨heq, hlt2⟩
    · right
      have hle := stepChunk_sid_le ⟨m, K⟩ s1 c
      refine ⟨by omega, ?_⟩
      rw [← heq]
      omega
  · have hcap : ¬ s1.sid + 1 < K := by omega
    rw [stepChunk_atCap _ _ _ hcap]
    have hmono := (stepChunk_sid_le ⟨m, K2⟩ s2 c).1
    exact Or.inr ⟨h1, by omega⟩

theorem simRel_runStream (m K K2 : Nat) (hK : 1 ≤ K) (hKK : K ≤ K2)
    (chunks : List (List Char)) :
    SimRel K (runStream ⟨m, K⟩ chunks) (runStream ⟨m, K2⟩ chunks) := by
  rw [runStream, runStream]
  suffices h : ∀ (l : List (List Char)) (s1 s2 : OrchState), SimRel K s1 s2 →
      SimRel K (l.foldl (stepChunk ⟨m, K⟩) s1) (l.foldl (stepChunk ⟨m, K2⟩) s2) by
    apply h
    by_cases h1 : (1 : Nat) < K
    · exact Or.inl ⟨rfl, by simp [initState]; omega⟩
    · exact Or.inr ⟨by simp [initState]; omega, by simp [initState]; omega⟩
  intro l
  induction l with
  | nil => intro s1 s2 h; exact h
  | cons x xs ih =>
    intro s1 s2 h
    exact ih _ _ (simRel_step m K K2 hKK x s1 s2 h)

/-- The current bubble identity of a capped run is the minimum of the cap
boundary and the identity the uncapped run would reach. -/
theorem runStream_sid_min (m K K2 : Nat) (hK : 1 ≤ K) (hKK : K ≤ K2)
    (chunks : List (List Char)) :
    (runStream ⟨m, K⟩ chunks).sid =
      min (K - 1) ((runStream ⟨m, K2⟩ chunks).sid) := by
  rcases simRel_runStream m K K2 hK hKK chunks with ⟨heq, hlt⟩ | ⟨h1, h2⟩
  · rw [heq] at hlt ⊢
    omega
  · omega

/-- C4: if the token stream crosses more sentence boundaries than the cap
allows (the uncapped run would open more than `cap` bubbles), then exactly
`cap` bubbles are opened, exactly `cap` texts are submitted, mid-stream
finalization touches only bubbles `0..cap − 2` (the last bubble is never
split, being finalized only at turn end), and the last bubble absorbs all
remaining text: the submitted texts concatenate to the full stream. -/
theorem cap_enforcement (m cap : Nat) (chunks : List (List Char))
    (res : Nat → Bool) (order : List Nat) (hcap : 1 ≤ cap)
    (hN : cap - 1 < (runStream ⟨m, chunks.length + 1⟩ chunks).sid) :
    startSids (runComplete ⟨m, cap⟩ chunks res order) = List.range cap ∧
    finSids (runStream ⟨m, cap⟩ chunks).evs = List.range (cap - 1) ∧
    (finalTexts ⟨m, cap⟩ chunks).length = cap ∧
    (finalTexts ⟨m, cap⟩ chunks).flatten = chunks.flatten := by
  have hbound := runStream_sid_le ⟨m, chunks.length + 1⟩ chunks
  have hKK : cap ≤ chunks.length + 1 := by omega
  have hsid : (runStream ⟨m, cap⟩ chunks).sid = cap - 1 := by
    rw [runStream_sid_min m cap (chunks.length + 1) hcap hKK chunks]
    omega
  refine ⟨?_, ?_, ?_, finalTexts_flatten _ chunks⟩
  · have h := (density_invariant ⟨m, cap⟩ chunks res order hcap).1
    rw [h, hsid]
    congr 1
    omega
  · have h := finOrderInv_runStream ⟨m, cap⟩ chunks
    rw [FinOrderInv] at h
    rw [h, hsid]
  · have h := (alignInv_runStream ⟨m, cap⟩ chunks).1
    rw [finalTexts, List.length_append, List.length_singleton, h, hsid]
    omega

/-- Witness for C4: cap 2, floor 1, three paragraph-broken chunks (the
uncapped run would open four bubbles). -/
theorem cap_enforcement_witness :
    startSids (runComplete ⟨1, 2⟩ cksW (fun _ => true) [0, 1]) = [0, 1] ∧
    finSids (runStream ⟨1, 2⟩ cksW).evs = [0] := by
  have h := cap_enforcement 1 2 cksW (fun _ => true) [0, 1] (by decide) (by decide)
  exact ⟨h.1.trans (by decide), h.2.1.trans (by decide)⟩

/-! ### The split step (C2) -/

/-- C2 (amended): when the Boundary Detector reports a boundary at offset
`k` after a chunk is appended while streaming, the bubble cap is not
reached, and the corresponding split position `k + 1` falls at or after
the start of the just-appended chunk, the Orchestrator splits the chunk —
not the whole buffer — at that position, routes the prefix to the current
bubble and the suffix to the next, and emits, in order: token(prefix) for
the current bubble, sentence_end for the current bubble (whose full text
is submitted for synthesis), message_start for the new bubble, and
token(suffix) for the new bubble. -/
theorem split_step_behavior (cfg : StreamCfg) (st : OrchState)
    (chunk : List Char) (k : Nat)
    (hdet : st.sid + 1 < cfg.maxBubbles)
    (hb : find_sentence_boundary (st.buf ++ chunk) cfg.minLen = some k)
    (hk : st.buf.length ≤ k + 1) :
    (stepChunk cfg st chunk).evs = st.evs ++
      [Ev.tok st.sid (chunk.take (k + 1 - st.buf.length)), Ev.fin st.sid,
       Ev.start (st.sid + 1), Ev.tok (st.sid + 1) (chunk.drop (k + 1 - st.buf.length))] ∧
    (stepChunk cfg st chunk).fin =
      st.fin ++ [st.buf ++ chunk.take (k + 1 - st.buf.length)] ∧
    (stepChunk cfg st chunk).buf = chunk.drop (k + 1 - st.buf.length) ∧
    (stepChunk cfg st chunk).sid = st.sid + 1 := by
  have hnk : ¬ k + 1 < st.buf.length := by omega
  simp only [stepChunk, if_pos hdet, hb, if_neg hnk]
  simp

/-- A 20-character chunk ending in a full stop, used as witness input. -/
def chunkW : List Char := "abcdefghijklmnopqrs。".toList

/-- Witness for C2 (amended) at a concrete input: the first chunk of a
turn ends in a stop at offset 19, so the split keeps the whole chunk as
prefix and opens bubble 1 with an empty suffix. -/
theorem split_step_behavior_witness :
    (stepChunk ⟨8, 4⟩ initState chunkW).evs =
      [Ev.start 0, Ev.tok 0 chunkW, Ev.fin 0, Ev.start 1, Ev.tok 1 []] := by
  have h := split_step_behavior ⟨8, 4⟩ initState chunkW 19
    (by decide) (by decide) (by decide)
  exact h.1.trans (by decide)

/-- A 19-character chunk whose stop punctuation sits at offset 10: too
short for the stop tier to fire on its own. -/
def cChunkA : List Char := "abcdefghij。klmnopqr".toList

/-- The streaming state after that single chunk. -/
def cStA : OrchState := runStream ⟨8, 4⟩ [cChunkA]

/-- C2 (counterexample to the unamended claim): after appending the next
chunk the detector reports a boundary at offset 10 and the cap is not
reached, yet the Orchestrator emits a single token event carrying the
whole chunk — not the token/sentence_end/message_start/token sequence the
claim describes — because the split position would fall before the
just-appended chunk (the spec §7 ProtocolViolation degraded path: the
split is dropped). -/
theorem split_step_counterexample :
    find_sentence_boundary (cStA.buf ++ ['s']) 8 = some 10 ∧
    cStA.sid + 1 < (⟨8, 4⟩ : StreamCfg).maxBubbles ∧
    (stepChunk ⟨8, 4⟩ cStA ['s']).evs = cStA.evs ++ [Ev.tok cStA.sid ['s']] ∧
    ¬ ∃ pre suf : List Char,
        (stepChunk ⟨8, 4⟩ cStA ['s']).evs = cStA.evs ++
          [Ev.tok cStA.sid pre, Ev.fin cStA.sid,
           Ev.start (cStA.sid + 1), Ev.tok (cStA.sid + 1) suf] := by
  refine ⟨by decide, by decide, by decide, ?_⟩
  rintro ⟨pre, suf, h⟩
  have h3 : (stepChunk ⟨8, 4⟩ cStA ['s']).evs.length = cStA.evs.length + 1 := by decide
  rw [h, List.length_append] at h3
  simp at h3

/-- The tier-priority example of spec §8. -/
def listInputW : List Char := "1. 首先\n2. 然后".toList

/-- Witness for C3 at the spec's tier-priority example: the numbered-list
tier fires at offset 5 even though the fragment is short. -/
theorem find_sentence_boundary_eq_some_witness :
    ∃ t, t ≤ 6 ∧ tierFloor 8 t ≤ listInputW.length ∧
      tierAt t listInputW 5 = true ∧
      (∀ j, j < 5 → tierAt t listInputW j = false) ∧
      (∀ u, u < t → listInputW.length < tierFloor 8 u ∨
        ∀ j, tierAt u listInputW j = false) :=
  (find_sentence_boundary_eq_some listInputW 8 5).mp (by decide)

/-! ### Per-bubble event ordering (C7) -/

theorem bubbleEvs_append (b : Nat) (l1 l2 : List Ev) :
    bubbleEvs b (l1 ++ l2) = bubbleEvs b l1 ++ bubbleEvs b l2 :=
  List.filter_append ..

theorem bubbleEvs_single_tok (b s : Nat) (t : List Char) :
    bubbleEvs b [Ev.tok s t] = if s = b then [Ev.tok s t] else [] := by
  by_cases h : s = b
  · have e : (s == b) = true := beq_iff_eq.mpr h
    simp [bubbleEvs, belongs, List.filter_cons, e, h]
  · have e : (s == b) = false := by
      rw [beq_eq_false_iff_ne]; exact h
    simp [bubbleEvs, belongs, List.filter_cons, e, h]

theorem bubbleEvs_split_self (sid : Nat) (pre suf : List Char) :
    bubbleEvs sid [Ev.tok sid pre, Ev.fin sid, Ev.start (sid + 1), Ev.tok (sid + 1) suf] =
      [Ev.tok sid pre, Ev.fin sid] := by
  have e1 : (sid == sid) = true := beq_iff_eq.mpr rfl
  have e2 : (sid + 1 == sid) = false := by
    rw [beq_eq_false_iff_ne]; omega
  simp [bubbleEvs, belongs, List.filter_cons, e1, e2]

theorem bubbleEvs_split_next (sid : Nat) (pre suf : List Char) :
    bubbleEvs (sid + 1) [Ev.tok sid pre, Ev.fin sid, Ev.start (sid + 1), Ev.tok (sid + 1) suf] =
      [Ev.start (sid + 1), Ev.tok (sid + 1) suf] := by
  have e1 : (sid + 1 == sid + 1) = true := beq_iff_eq.mpr rfl
  have e2 : (sid == sid + 1) = false := by
    rw [beq_eq_false_iff_ne]; omega
  simp [bubbleEvs, belongs, List.filter_cons, e1, e2]

theorem bubbleEvs_split_other (b sid : Nat) (pre suf : List Char)
    (h1 : b ≠ sid) (h2 : b ≠ sid + 1) :
    bubbleEvs b [Ev.tok sid pre, Ev.fin sid, Ev.start (sid + 1), Ev.tok (sid + 1) suf] =
      [] := by
  have e1 : (sid == b) = false := by
    rw [beq_eq_false_iff_ne]; omega
  have e2 : (sid + 1 == b) = false := by
    rw [beq_eq_false_iff_ne]; omega
  simp [bubbleEvs, belongs, List.filter_cons, e1, e2]

/-- A bubble that is still open has emitted `message_start` followed by
zero or more `token` events. -/
def OpenShape (b : Nat) (l : List Ev) : Prop :=
  ∃ ts : List (List Char), l = Ev.start b :: ts.map (Ev.tok b)

/-- A finalized bubble has emitted `message_start`, then zero or more
`token` events, then `sentence_end`. -/
def ClosedShape (b : Nat) (l : List Ev) : Prop :=
  ∃ ts : List (List Char), l = Ev.start b :: (ts.map (Ev.tok b) ++ [Ev.fin b])

/-- Running shape invariant: bubbles below the current one are closed, the
current one is open, higher identities have emitted nothing. -/
def ShapeInv (st : OrchState) : Prop :=
  ∀ b, (b < st.sid → ClosedShape b (bubbleEvs b st.evs)) ∧
       (b = st.sid → OpenShape b (bubbleEvs b st.evs)) ∧
       (st.sid < b → bubbleEvs b st.evs = [])

theorem shapeInv_init : ShapeInv initState := by
  intro b
  refine ⟨fun h => absurd h (by simp [initState]), fun h => ?_, fun h => ?_⟩
  · refine ⟨[], ?_⟩
    have hb : b = 0 := h
    subst hb
    have e : ((0 : Nat) == 0) = true := rfl
    simp [initState, bubbleEvs, belongs, List.filter_cons, e]
  · have hb : 0 < b := h
    have e : ((0 : Nat) == b) = false := by
      rw [beq_eq_false_iff_ne]; omega
    simp [initState, bubbleEvs, belongs, List.filter_cons, e]

theorem shapeInv_step (cfg : StreamCfg) (st : OrchState) (c : List Char)
    (h : ShapeInv st) : ShapeInv (stepChunk cfg st c) := by
  rcases stepChunk_shape cfg st c with hs | ⟨sp, hsp, hcap, hs⟩
  · rw [hs]
    intro b
    obtain ⟨hc, ho, hn⟩ := h b
    refine ⟨fun hb => ?_, fun hb => ?_, fun hb => ?_⟩
    · dsimp at hb ⊢
      rcases hc hb with ⟨ts, hts⟩
      refine ⟨ts, ?_⟩
      rw [bubbleEvs_append, hts, bubbleEvs_single_tok,
        if_neg (by omega : ¬ st.sid = b)]
      simp
    · dsimp at hb ⊢
      rcases ho hb with ⟨ts, hts⟩
      refine ⟨ts ++ [c], ?_⟩
      rw [bubbleEvs_append, hts, bubbleEvs_single_tok, if_pos hb.symm]
      simp [hb]
    · dsimp at hb ⊢
      rw [bubbleEvs_append, hn hb, bubbleEvs_single_tok,
        if_neg (by omega : ¬ st.sid = b)]
      simp
  · rw [hs]
    intro b
    obtain ⟨hc, ho, hn⟩ := h b
    refine ⟨fun hb => ?_, fun hb => ?_, fun hb => ?_⟩
    · dsimp at hb
      by_cases hb2 : b = st.sid
      · subst hb2
        rcases ho rfl with ⟨ts, hts⟩
        refine ⟨ts ++ [c.take sp], ?_⟩
        rw [bubbleEvs_append, hts, bubbleEvs_split_self]
        simp
      · have hb3 : b < st.sid := by omega
        rcases hc hb3 with ⟨ts, hts⟩
        refine ⟨ts, ?_⟩
        rw [bubbleEvs_append, hts, bubbleEvs_split_other b st.sid _ _ hb2 (by omega)]
        simp
    · dsimp at hb
      subst hb
      refine ⟨[c.drop sp], ?_⟩
      rw [bubbleEvs_append, hn (by omega), bubbleEvs_split_next]
      simp
    · dsimp at hb
      rw [bubbleEvs_append, hn (by omega),
        bubbleEvs_split_other b st.sid _ _ (by omega) (by omega)]
      simp

theorem shapeInv_runStream (cfg : StreamCfg) (chunks : List (List Char)) :
    ShapeInv (runStream cfg chunks) :=
  foldl_inv _ _ (shapeInv_step cfg) chunks initState shapeInv_init

theorem belongs_outcome (b : Nat) (res : Nat → Bool) (x : Nat) :
    belongs b (outcomeEv res x) = (x == b) := by
  by_cases h : res x <;> simp [outcomeEv, belongs, h]

theorem range_filter_beq (n b : Nat) :
    (List.range n).filter (fun x => x == b) = if b < n then [b] else [] := by
  induction n with
  | zero => simp
  | succ m ih =>
    rw [List.range_succ, List.filter_append, ih]
    by_cases h : b < m
    · have h2 : b < m + 1 := by omega
      have h3 : ¬ (m == b) = true := by simp; omega
      simp [h, h2, List.filter, h3]
    · by_cases h2 : b = m
      · subst h2
        simp [h, List.filter]
      · have h3 : ¬ b < m + 1 := by omega
        have h4 : ¬ (m == b) = true := by simp; omega
        simp [h, h3, List.filter, h4]

theorem bubbleEvs_map_outcome (b : Nat) (res : Nat → Bool) (l : List Nat) :
    bubbleEvs b (l.map (outcomeEv res)) =
      (l.filter (fun x => x == b)).map (outcomeEv res) := by
  induction l with
  | nil => rfl
  | cons x xs ih =>
    rw [List.map_cons, List.filter_cons]
    by_cases h : (x == b) = true
    · rw [if_pos h, List.map_cons, ← ih]
      have hb : belongs b (outcomeEv res x) = true := by
        rw [belongs_outcome]; exact h
      simp [bubbleEvs, List.filter_cons, hb]
    · rw [if_neg h, ← ih]
      have hb : ¬ belongs b (outcomeEv res x) = true := by
        rw [belongs_outcome]; exact h
      simp [bubbleEvs, List.filter_cons, hb]

theorem bubbleEvs_order (b : Nat) (res : Nat → Bool) (order : List Nat)
    (n : Nat) (hord : order.Perm (List.range n)) (hb : b < n) :
    bubbleEvs b (order.map (outcomeEv res)) = [outcomeEv res b] := by
  rw [bubbleEvs_map_outcome]
  have hperm : (order.filter (fun x => x == b)).Perm
      ((List.range n).filter (fun x => x == b)) := hord.filter _
  rw [range_filter_beq, if_pos hb] at hperm
  rw [List.perm_singleton.mp hperm]
  rfl

/-- Which events are emitted during the streaming phase. -/
def isStreamEv : Ev → Bool
  | Ev.start _ => true
  | Ev.tok _ _ => true
  | Ev.fin _ => true
  | _ => false

theorem streamEvKinds_runStream (cfg : StreamCfg) (chunks : List (List Char)) :
    ∀ e ∈ (runStream cfg chunks).evs, isStreamEv e = true := by
  refine foldl_inv _ (fun st => ∀ e ∈ st.evs, isStreamEv e = true) ?_ chunks initState ?_
  · intro st c h
    rcases stepChunk_shape cfg st c with hs | ⟨sp, hsp, hcap, hs⟩
    · rw [hs]
      intro e he
      rcases List.mem_append.mp he with h1 | h1
      · exact h e h1
      · rcases List.mem_singleton.mp h1 with rfl
        rfl
    · rw [hs]
      intro e he
      rcases List.mem_append.mp he with h1 | h1
      · exact h e h1
      · have h2 : e = Ev.tok st.sid (c.take sp) ∨ e = Ev.fin st.sid ∨
            e = Ev.start (st.sid + 1) ∨ e = Ev.tok (st.sid + 1) (c.drop sp) := by
          simpa using h1
        rcases h2 with rfl | rfl | rfl | rfl <;> rfl
  · intro e he
    rcases List.mem_singleton.mp he with rfl
    rfl

theorem start_mem_runStream (cfg : StreamCfg) (chunks : List (List Char))
    (h : 1 ≤ cfg.maxBubbles) (b : Nat) (hb : b ≤ (runStream cfg chunks).sid) :
    Ev.start b ∈ (runStream cfg chunks).evs := by
  obtain ⟨h1, _⟩ := densityInv_runStream cfg chunks h
  have hmem : b ∈ startSids (runStream cfg chunks).evs := by
    rw [h1, List.mem_range]
    omega
  rcases List.mem_filterMap.mp hmem with ⟨e, he, hfe⟩
  cases e <;> simp at hfe
  rw [hfe] at he
  exact he

/-- C7: in a completed turn, the events of every bubble appear in the
order `message_start`, zero or more `token`s, `sentence_end`, then the
synthesis outcome (audio or per-bubble error) — for any resolution order
of the synthesis jobs — and every `audio` event references a bubble whose
`message_start` was emitted strictly earlier in the trace. -/
theorem event_ordering (cfg : StreamCfg) (chunks : List (List Char))
    (res : Nat → Bool) (order : List Nat) (hcap : 1 ≤ cfg.maxBubbles)
    (hord : order.Perm (List.range ((runStream cfg chunks).sid + 1))) :
    (∀ b, b ≤ (runStream cfg chunks).sid →
      ∃ ts : List (List Char), bubbleEvs b (runComplete cfg chunks res order) =
        Ev.start b :: (ts.map (Ev.tok b) ++ [Ev.fin b, outcomeEv res b])) ∧
    (∀ i b, (runComplete cfg chunks res order).get? i = some (Ev.audio b) →
      ∃ j, j < i ∧ (runComplete cfg chunks res order).get? j = some (Ev.start b)) := by
  have hshape := shapeInv_runStream cfg chunks
  set st := runStream cfg chunks with hst
  constructor
  · intro b hb
    obtain ⟨hc, ho, hn⟩ := hshape b
    have houts : bubbleEvs b (order.map (outcomeEv res)) = [outcomeEv res b] :=
      bubbleEvs_order b res order (st.sid + 1) hord (by omega)
    have hdone : bubbleEvs b [Ev.done (countTrue res (st.sid + 1))
        (st.sid + 1 - countTrue res (st.sid + 1))] = [] := by
      simp [bubbleEvs, belongs, List.filter]
    rw [runComplete]
    rw [bubbleEvs_append, bubbleEvs_append, bubbleEvs_append, houts, hdone]
    rcases Nat.lt_or_ge b st.sid with hlt | hge
    · rcases hc hlt with ⟨ts, hts⟩
      have hfin : bubbleEvs b [Ev.fin st.sid] = [] := by
        have e : ¬ (st.sid == b) = true := by simp; omega
        simp [bubbleEvs, belongs, List.filter, e]
      refine ⟨ts, ?_⟩
      rw [hts, hfin]
      simp
    · have hbeq : b = st.sid := by omega
      rcases ho hbeq with ⟨ts, hts⟩
      have hfin : bubbleEvs b [Ev.fin st.sid] = [Ev.fin b] := by
        rw [hbeq]
        simp [bubbleEvs, belongs, List.filter]
      refine ⟨ts, ?_⟩
      rw [hts, hfin, hbeq]
      simp
  · intro i b hget
    have hstream : ∀ e ∈ st.evs ++ [Ev.fin st.sid], isStreamEv e = true := by
      intro e he
      rcases List.mem_append.mp he with h1 | h1
      · exact streamEvKinds_runStream cfg chunks e h1
      · rcases List.mem_singleton.mp h1 with rfl
        rfl
    have hsplit : runComplete cfg chunks res order =
        (st.evs ++ [Ev.fin st.sid]) ++ (order.map (outcomeEv res) ++
          [Ev.done (countTrue res (st.sid + 1))
            (st.sid + 1 - countTrue res (st.sid + 1))]) := by
      rw [runComplete]
      simp [List.append_assoc]
    set P := st.evs ++ [Ev.fin st.sid] with hP
    rcases Nat.lt_or_ge i P.length with hi | hi
    · exfalso
      rw [hsplit, List.get?_append hi] at hget
      have hmem : Ev.audio b ∈ P := List.get?_mem hget
      have := hstream _ hmem
      simp [isStreamEv] at this
    · have hb : b ≤ st.sid := by
        rw [hsplit, List.get?_append_right hi] at hget
        have hmem : Ev.audio b ∈ order.map (outcomeEv res) ++
            [Ev.done (countTrue res (st.sid + 1))
              (st.sid + 1 - countTrue res (st.sid + 1))] := List.get?_mem hget
        rcases List.mem_append.mp hmem with h1 | h1
        · rcases List.mem_map.mp h1 with ⟨x, hx, hxe⟩
          have hxb : x = b := by
            by_cases hr : res x <;> simp [outcomeEv, hr] at hxe
            exact hxe
          subst hxb
          have : x ∈ List.range (st.sid + 1) := hord.mem_iff.mp hx
          rw [List.mem_range] at this
          omega
        · rcases List.mem_singleton.mp h1 with h
          cases h
      have hmemstart : Ev.start b ∈ st.evs := start_mem_runStream cfg chunks hcap b hb
      rcases List.get?_of_mem hmemstart with ⟨j, hj⟩
      have hjlt : j < st.evs.length := by
        rcases List.get?_eq_some.mp hj with ⟨hlt, _⟩
        exact hlt
      refine ⟨j, ?_, ?_⟩
      · have : st.evs.length ≤ P.length := by
          rw [hP, List.length_append]
          omega
        omega
      · rw [hsplit, List.get?_append (by rw [hP, List.length_append]; omega),
          hP, List.get?_append hjlt]
        exact hj

/-- Witness for C7 at a concrete run: cap 4, floor 1, three
paragraph-broken chunks, synthesis failing on bubble 1, audio resolving in
reverse order. -/
theorem event_ordering_witness :
    (∀ b, b ≤ (runStream ⟨1, 4⟩ cksW).sid →
      ∃ ts : List (List Char), bubbleEvs b (runComplete ⟨1, 4⟩ cksW (fun i => !(i == 1)) [3, 2, 1, 0]) =
        Ev.start b :: (ts.map (Ev.tok b) ++ [Ev.fin b, outcomeEv (fun i => !(i == 1)) b])) ∧
    (∀ i b, (runComplete ⟨1, 4⟩ cksW (fun i => !(i == 1)) [3, 2, 1, 0]).get? i = some (Ev.audio b) →
      ∃ j, j < i ∧ (runComplete ⟨1, 4⟩ cksW (fun i => !(i == 1)) [3, 2, 1, 0]).get? j = some (Ev.start b)) :=
  event_ordering ⟨1, 4⟩ cksW (fun i => !(i == 1)) [3, 2, 1, 0] (by decide) (by decide)

/-! ### Error isolation (C8) and cancellation (C9) -/

theorem countTrue_le (res : Nat → Bool) (n : Nat) : countTrue res n ≤ n := by
  have h := List.length_filter_le res (List.range n)
  rw [List.length_range] at h
  exact h

/-- C8: a synthesis failure for one bubble does not abort the turn — it
surfaces as an error event tagged with that bubble while every successful
bubble still receives its audio event, the turn still ends with a `done`
event whose success/failure counts partition the bubbles, and every bubble
is still finalized; whereas a producer error ends the trace with a
terminal turn-level error event and finalizes no further bubble (only the
bubbles already finalized mid-stream have `sentence_end` events). -/
theorem error_isolation (cfg : StreamCfg) (chunks : List (List Char))
    (res : Nat → Bool) (order : List Nat)
    (hord : order.Perm (List.range ((runStream cfg chunks).sid + 1))) :
    (∀ b, b ≤ (runStream cfg chunks).sid → res b = false →
      Ev.errS b ∈ runComplete cfg chunks res order) ∧
    (∀ b, b ≤ (runStream cfg chunks).sid → res b = true →
      Ev.audio b ∈ runComplete cfg chunks res order) ∧
    (runComplete cfg chunks res order).getLast? =
      some (Ev.done (countTrue res ((runStream cfg chunks).sid + 1))
        ((runStream cfg chunks).sid + 1 -
          countTrue res ((runStream cfg chunks).sid + 1))) ∧
    countTrue res ((runStream cfg chunks).sid + 1) +
      ((runStream cfg chunks).sid + 1 -
        countTrue res ((runStream cfg chunks).sid + 1)) =
      (runStream cfg chunks).sid + 1 ∧
    finSids (runComplete cfg chunks res order) =
      List.range ((runStream cfg chunks).sid + 1) ∧
    (runProducerError cfg chunks).getLast? = some Ev.errTurn ∧
    finSids (runProducerError cfg chunks) =
      List.range (runStream cfg chunks).sid := by
  set st := runStream cfg chunks with hst
  have hmemOut : ∀ b, b ≤ st.sid →
      outcomeEv res b ∈ runComplete cfg chunks res order := by
    intro b hb
    have hbo : b ∈ order := hord.mem_iff.mpr (List.mem_range.mpr (by omega))
    have : outcomeEv res b ∈ order.map (outcomeEv res) :=
      List.mem_map.mpr ⟨b, hbo, rfl⟩
    rw [runComplete]
    exact List.mem_append.mpr (Or.inl (List.mem_append.mpr (Or.inr this)))
  refine ⟨?_, ?_, ?_, ?_, ?_, ?_, ?_⟩
  · intro b hb hres
    have h := hmemOut b hb
    rw [outcomeEv, hres] at h
    simpa using h
  · intro b hb hres
    have h := hmemOut b hb
    rw [outcomeEv, hres] at h
    simpa using h
  · rw [runComplete]
    rw [show st.evs ++ [Ev.fin st.sid] ++ order.map (outcomeEv res) ++
        [Ev.done (countTrue res (st.sid + 1)) (st.sid + 1 - countTrue res (st.sid + 1))] =
      (st.evs ++ [Ev.fin st.sid] ++ order.map (outcomeEv res)) ++
        [Ev.done (countTrue res (st.sid + 1)) (st.sid + 1 - countTrue res (st.sid + 1))]
      from rfl]
    exact List.getLast?_concat _
  · have := countTrue_le res (st.sid + 1)
    omega
  · have h := finOrderInv_runStream cfg chunks
    rw [FinOrderInv] at h
    rw [runComplete, finSids_append, finSids_append, finSids_append, h,
      finSids_map_outcome]
    have e1 : finSids [Ev.fin st.sid] = [st.sid] := by
      simp [finSids, List.filterMap]
    have e2 : finSids [Ev.done (countTrue res (st.sid + 1))
        (st.sid + 1 - countTrue res (st.sid + 1))] = [] := by
      simp [finSids, List.filterMap]
    rw [e1, e2, ← hst, List.range_succ]
    simp
  · exact List.getLast?_concat _
  · have h := finOrderInv_runStream cfg chunks
    rw [FinOrderInv] at h
    rw [runProducerError, finSids_append, h]
    have e : finSids [Ev.errTurn] = [] := by
      simp [finSids, List.filterMap]
    rw [e, List.append_nil]

/-- Witness for C8 at a concrete run: cap 4, three paragraph-broken
chunks, synthesis failing on bubble 1 only, outcomes resolving in reverse
order. -/
theorem error_isolation_witness :
    Ev.errS 1 ∈ runComplete ⟨1, 4⟩ cksW (fun i => !(i == 1)) [3, 2, 1, 0] ∧
    Ev.audio 0 ∈ runComplete ⟨1, 4⟩ cksW (fun i => !(i == 1)) [3, 2, 1, 0] ∧
    (runComplete ⟨1, 4⟩ cksW (fun i => !(i == 1)) [3, 2, 1, 0]).getLast? =
      some (Ev.done 3 1) ∧
    (runProducerError ⟨1, 4⟩ cksW).getLast? = some Ev.errTurn := by
  have h := error_isolation ⟨1, 4⟩ cksW (fun i => !(i == 1)) [3, 2, 1, 0] (by decide)
  refine ⟨h.1 1 (by decide) (by decide), h.2.1 0 (by decide) (by decide), ?_, h.2.2.2.2.2.1⟩
  have h3 := h.2.2.1
  rw [show countTrue (fun i => !(i == 1)) ((runStream ⟨1, 4⟩ cksW).sid + 1) = 3 from by decide,
    show (runStream ⟨1, 4⟩ cksW).sid + 1 - 3 = 1 from by decide] at h3
  exact h3

theorem foldl_evs_extend (cfg : StreamCfg) :
    ∀ (l : List (List Char)) (st : OrchState),
      ∃ t, (l.foldl (stepChunk cfg) st).evs = st.evs ++ t := by
  intro l
  induction l with
  | nil => intro st; exact ⟨[], by simp⟩
  | cons x xs ih =>
    intro st
    rcases ih (stepChunk cfg st x) with ⟨t2, ht2⟩
    rcases stepChunk_evs_extend cfg st x with ⟨t1, ht1⟩
    refine ⟨t1 ++ t2, ?_⟩
    rw [List.foldl_cons, ht2, ht1, List.append_assoc]

theorem tokEvs_append (l1 l2 : List Ev) :
    tokEvs (l1 ++ l2) = tokEvs l1 ++ tokEvs l2 :=
  List.filter_append ..

theorem tokEvs_map_outcome (res : Nat → Bool) (l : List Nat) :
    tokEvs (l.map (outcomeEv res)) = [] := by
  rw [tokEvs, List.filter_eq_nil_iff]
  intro e he
  rcases List.mem_map.mp he with ⟨x, _, rfl⟩
  by_cases hx : res x <;> simp [outcomeEv, hx, isTok]

/-- C9: cancelling after `i` chunks leaves the emitted trace a prefix of
the full turn's streaming trace; the cancelled turn's `token` events are
exactly those already emitted for the consumed prefix (no token event from
the unconsumed remainder is ever delivered), and the trace still ends with
a terminal `done` event carrying the partial counts. -/
theorem cancellation_behavior (cfg : StreamCfg) (chunks : List (List Char))
    (i : Nat) (res : Nat → Bool) (order : List Nat) :
    (∃ t, (runStream cfg chunks).evs =
      (runStream cfg (chunks.take i)).evs ++ t) ∧
    tokEvs (runCancelled cfg chunks i res order) =
      tokEvs (runStream cfg (chunks.take i)).evs ∧
    (runCancelled cfg chunks i res order).getLast? =
      some (Ev.done (countTrue res (runStream cfg (chunks.take i)).sid)
        ((runStream cfg (chunks.take i)).sid -
          countTrue res (runStream cfg (chunks.take i)).sid)) := by
  refine ⟨?_, ?_, ?_⟩
  · have hsplit : chunks = chunks.take i ++ chunks.drop i :=
      (List.take_append_drop i chunks).symm
    rw [show runStream cfg chunks =
        (chunks.drop i).foldl (stepChunk cfg) (runStream cfg (chunks.take i)) from by
      rw [runStream, runStream, ← List.foldl_append, ← hsplit]]
    exact foldl_evs_extend cfg _ _
  · rw [runCancelled, tokEvs_append, tokEvs_append, tokEvs_map_outcome]
    have e : tokEvs [Ev.done (countTrue res (runStream cfg (chunks.take i)).sid)
        ((runStream cfg (chunks.take i)).sid -
          countTrue res (runStream cfg (chunks.take i)).sid)] = [] := by
      simp [tokEvs, List.filter, isTok]
    rw [e]
    simp
  · rw [runCancelled]
    rw [show (runStream cfg (chunks.take i)).evs ++ order.map (outcomeEv res) ++
        [Ev.done (countTrue res (runStream cfg (chunks.take i)).sid)
          ((runStream cfg (chunks.take i)).sid -
            countTrue res (runStream cfg (chunks.take i)).sid)] =
      ((runStream cfg (chunks.take i)).evs ++ order.map (outcomeEv res)) ++
        [Ev.done (countTrue res (runStream cfg (chunks.take i)).sid)
          ((runStream cfg (chunks.take i)).sid -
            countTrue res (runStream cfg (chunks.take i)).sid)] from rfl]
    exact List.getLast?_concat _

/-! ## Synthesis Gate (spec §4.3; the `asyncio.Semaphore(1)` of engine.py) -/

/-- Modelled from the spec: a synthesis job as the Gate sees it — its
submission time and the duration its backend call would take if allowed to
finish.  Time is discrete. -/
structure Job where
  sub : Nat
  dur : Nat
  deriving DecidableEq, Repr

/-- Modelled from the spec: the Gate (a capacity-one admission primitive)
admits jobs in submission (FIFO) order, one at a time; a job starts when
it has been submitted and the backend is free, and its backend call ends
at completion or when its own timeout window `T` — measured from its
start, not from submission — expires.  Returns each job's (start, end)
execution interval, in submission order; `free` is the time the backend
becomes available. -/
def gateSchedule (T : Nat) : Nat → List Job → List (Nat × Nat)
  | _, [] => []
  | free, j :: rest =>
    (max j.sub free, max j.sub free + min j.dur T) ::
      gateSchedule T (max j.sub free + min j.dur T) rest

theorem gateSchedule_free_le (T : Nat) :
    ∀ (jobs : List Job) (free i s e : Nat),
      (gateSchedule T free jobs).get? i = some (s, e) → free ≤ s ∧ s ≤ e := by
  intro jobs
  induction jobs with
  | nil => intro free i s e h; simp [gateSchedule] at h
  | cons j rest ih =>
    intro free i s e h
    cases i with
    | zero =>
      rw [gateSchedule, List.get?_cons_zero] at h
      cases h
      exact ⟨Nat.le_max_right _ _, by omega⟩
    | succ n =>
      rw [gateSchedule, List.get?_cons_succ] at h
      have h2 := ih _ n s e h
      have h3 : free ≤ max j.sub free + min j.dur T := by
        have := Nat.le_max_right j.sub free
        omega
      exact ⟨by omega, h2.2⟩

theorem gateSchedule_exclusive (T : Nat) :
    ∀ (jobs : List Job) (free i j si ei sj ej : Nat), i < j →
      (gateSchedule T free jobs).get? i = some (si, ei) →
      (gateSchedule T free jobs).get? j = some (sj, ej) → ei ≤ sj := by
  intro jobs
  induction jobs with
  | nil => intro free i j si ei sj ej hij hi hj; simp [gateSchedule] at hi
  | cons jb rest ih =>
    intro free i j si ei sj ej hij hi hj
    cases i with
    | zero =>
      rw [gateSchedule, List.get?_cons_zero] at hi
      cases hi
      cases j with
      | zero => omega
      | succ m =>
        rw [gateSchedule, List.get?_cons_succ] at hj
        exact (gateSchedule_free_le T rest _ m sj ej hj).1
    | succ n =>
      cases j with
      | zero => omega
      | succ m =>
        rw [gateSchedule, List.get?_cons_succ] at hi hj
        exact ih _ n m si ei sj ej (by omega) hi hj

theorem gateSchedule_timeout (T : Nat) :
    ∀ (jobs : List Job) (free i : Nat) (jb : Job) (s e : Nat),
      jobs.get? i = some jb →
      (gateSchedule T free jobs).get? i = some (s, e) →
      jb.sub ≤ s ∧ e = s + min jb.dur T := by
  intro jobs
  induction jobs with
  | nil => intro free i jb s e h1 h2; simp at h1
  | cons j rest ih =>
    intro free i jb s e h1 h2
    cases i with
    | zero =>
      rw [List.get?_cons_zero] at h1
      rw [gateSchedule, List.get?_cons_zero] at h2
      cases h1
      cases h2
      exact ⟨Nat.le_max_left _ _, rfl⟩
    | succ n =>
      rw [List.get?_cons_succ] at h1
      rw [gateSchedule, List.get?_cons_succ] at h2
      exact ih _ n jb s e h1 h2

/-- C6: under the Gate, (i) the execution intervals of any two jobs are
disjoint and ordered by submission index — the later-submitted job starts
only after the earlier one's backend call has ended (completed or timed
out), so at every instant at most one job is executing; and (ii) each
job starts no earlier than its submission and its execution window is
`min duration T`, i.e. its timeout `T` is measured from when it starts
executing, not from when it was submitted. -/
theorem gate_serialization (T : Nat) (jobs : List Job) :
    (∀ i j si ei sj ej, i < j →
      (gateSchedule T 0 jobs).get? i = some (si, ei) →
      (gateSchedule T 0 jobs).get? j = some (sj, ej) →
      ei ≤ sj ∧ si ≤ sj ∧
        ∀ t, si ≤ t → t < ei → ¬ (sj ≤ t ∧ t < ej)) ∧
    (∀ i jb s e, jobs.get? i = some jb →
      (gateSchedule T 0 jobs).get? i = some (s, e) →
      jb.sub ≤ s ∧ e = s + min jb.dur T) := by
  constructor
  · intro i j si ei sj ej hij hi hj
    have h1 := gateSchedule_exclusive T jobs 0 i j si ei sj ej hij hi hj
    have h2 := gateSchedule_free_le T jobs 0 i si ei hi
    refine ⟨h1, by omega, ?_⟩
    intro t ht1 ht2 ⟨ht3, _⟩
    omega
  · intro i jb s e h1 h2
    exact gateSchedule_timeout T jobs 0 i jb s e h1 h2

/-- Witness for C6: three jobs submitted at times 0, 1, 2 with durations
10, 50 (hitting the 30-unit timeout), 5: the schedule is
(0,10), (10,40), (40,45) — serialized, FIFO, timeout from start. -/
theorem gate_serialization_witness :
    gateSchedule 30 0 [⟨0, 10⟩, ⟨1, 50⟩, ⟨2, 5⟩] = [(0, 10), (10, 40), (40, 45)] ∧
    (10 : Nat) ≤ 10 ∧ (40 : Nat) = 10 + min 50 30 := by
  refine ⟨by decide, ?_, ?_⟩
  · have h := (gate_serialization 30 [⟨0, 10⟩, ⟨1, 50⟩, ⟨2, 5⟩]).1
      0 1 0 10 10 40 (by decide) (by decide) (by decide)
    exact h.1
  · have h := (gate_serialization 30 [⟨0, 10⟩, ⟨1, 50⟩, ⟨2, 5⟩]).2
      1 ⟨1, 50⟩ 10 40 (by decide) (by decide)
    exact h.2

/-! ## SSE stream client (`downloadUserVideosStream` in
`video-analysis-web/src/api/index.ts`)

The reader loop appends each decoded chunk to a buffer, splits the buffer
on the record terminator `"\n\n"`, keeps the last (incomplete) part as the
new buffer, and for each complete part trims it, checks for the
`"data: "` head, and JSON-parses the payload — invoking `onEvent` on
success and silently skipping parse failures.  JSON parsing is abstracted
as a parameter `parse`; text is modelled post-decoding as `List Char`. -/

/-- Prepend a character to the first part of a split result (the head of
a greedy left-to-right split). -/
def consHead (c : Char) : List (List Char) → List (List Char)
  | [] => [[c]]
  | l :: ls => (c :: l) :: ls

/-- Greedy left-to-right split on the two-character separator `"\n\n"`,
with JavaScript `String.prototype.split` semantics (empty parts kept;
a trailing separator yields a trailing empty part). -/
def splitNN : List Char → List (List Char)
  | [] => [[]]
  | [c] => [[c]]
  | c :: d :: t =>
    if c = '\n' ∧ d = '\n' then [] :: splitNN t
    else consHead c (splitNN (d :: t))

theorem splitNN_nil : splitNN [] = [[]] := rfl

theorem splitNN_single (c : Char) : splitNN [c] = [[c]] := rfl

theorem splitNN_cons2 (c d : Char) (t : List Char) :
    splitNN (c :: d :: t) =
      if c = '\n' ∧ d = '\n' then [] :: splitNN t
      else consHead c (splitNN (d :: t)) := rfl

theorem consHead_ne_nil (c : Char) (x : List (List Char)) : consHead c x ≠ [] := by
  cases x <;> simp [consHead]

theorem consHead_cons (c : Char) (l : List Char) (ls : List (List Char)) :
    consHead c (l :: ls) = (c :: l) :: ls := rfl

theorem splitNN_ne_nil (s : List Char) : splitNN s ≠ [] := by
  match s with
  | [] => simp [splitNN_nil]
  | [c] => simp [splitNN_single]
  | c :: d :: t =>
    rw [splitNN_cons2]
    by_cases h : c = '\n' ∧ d = '\n'
    · rw [if_pos h]; simp
    · rw [if_neg h]; exact consHead_ne_nil _ _

theorem splitNN_cons_head (a : Char) (u : List Char) {l : List Char}
    {ls : List (List Char)} (h : splitNN (a :: u) = l :: ls) :
    (l = [] ∧ ls ≠ []) ∨ ∃ r, l = a :: r := by
  cases u with
  | nil =>
    rw [splitNN_single] at h
    cases h
    exact Or.inr ⟨[], rfl⟩
  | cons d t =>
    rw [splitNN_cons2] at h
    by_cases hg : a = '\n' ∧ d = '\n'
    · rw [if_pos hg] at h
      cases h
      exact Or.inl ⟨rfl, splitNN_ne_nil t⟩
    · rw [if_neg hg] at h
      cases hS : splitNN (d :: t) with
      | nil => exact absurd hS (splitNN_ne_nil _)
      | cons q qs =>
        rw [hS, consHead_cons] at h
        cases h
        exact Or.inr ⟨q, rfl⟩

theorem dropLast_cons_ne {α : Type _} (a : α) (l : List α) (h : l ≠ []) :
    (a :: l).dropLast = a :: l.dropLast := by
  cases l with
  | nil => exact absurd rfl h
  | cons b bs => rfl

theorem getLast?_cons_ne {α : Type _} (a : α) (l : List α) (h : l ≠ []) :
    (a :: l).getLast? = l.getLast? := by
  cases l with
  | nil => exact absurd rfl h
  | cons b bs => exact List.getLast?_cons_cons

theorem dropLast_append_ne_nil {α : Type _} (A B : List α) (h : B ≠ []) :
    (A ++ B).dropLast = A ++ B.dropLast := by
  induction A with
  | nil => rfl
  | cons a as ih =>
    have h2 : as ++ B ≠ [] := by
      intro hc
      exact h (List.append_eq_nil.mp hc).2
    rw [List.cons_append, dropLast_cons_ne _ _ h2, ih, List.cons_append]

/-- Splitting distributes over concatenation: the complete parts of `x`
survive unchanged, and the residual last part of `x` is re-buffered in
front of `y` — even when the separator spans the boundary. -/
theorem splitNN_append (x y : List Char) :
    splitNN (x ++ y) =
      (splitNN x).dropLast ++
        splitNN (((splitNN x).getLast?.getD []) ++ y) := by
  induction x using splitNN.induct with
  | case1 =>
    rw [splitNN_nil]
    simp
  | case2 c =>
    rw [splitNN_single]
    simp
  | case3 c d t h ih =>
    obtain ⟨rfl, rfl⟩ := h
    have hS := splitNN_ne_nil t
    rw [show ('\n' :: '\n' :: t) ++ y = '\n' :: '\n' :: (t ++ y) from rfl,
      splitNN_cons2, if_pos ⟨rfl, rfl⟩, splitNN_cons2, if_pos ⟨rfl, rfl⟩,
      dropLast_cons_ne _ _ hS, getLast?_cons_ne _ _ hS, List.cons_append, ih]
  | case4 c d t h ih =>
    have hS := splitNN_ne_nil (d :: t)
    cases hSeq : splitNN (d :: t) with
    | nil => exact absurd hSeq hS
    | cons q qs =>
      rw [show (c :: d :: t) ++ y = c :: d :: (t ++ y) from rfl,
        splitNN_cons2, if_neg h,
        show d :: (t ++ y) = (d :: t) ++ y from rfl, ih, hSeq,
        splitNN_cons2, if_neg h, hSeq]
      cases qs with
      | nil =>
        have hq : ∃ r, q = d :: r := by
          rcases splitNN_cons_head d t hSeq with ⟨_, hc⟩ | hr
          · exact absurd rfl hc
          · exact hr
        rcases hq with ⟨r, rfl⟩
        rw [consHead_cons]
        simp only [List.dropLast_single, List.nil_append, List.getLast?_singleton,
          Option.getD_some, List.dropLast_single]
        rw [show ((c :: d :: r) ++ y) = c :: d :: (r ++ y) from rfl,
          splitNN_cons2, if_neg h]
        rfl
      | cons q2 qs2 =>
        have hqs : (q2 :: qs2 : List (List Char)) ≠ [] := by simp
        simp [consHead_cons, dropLast_cons_ne _ _ hqs, getLast?_cons_ne _ _ hqs]

/-- Every part produced by the split is itself separator-free: splitting a
part returns it unchanged. -/
theorem splitNN_part_eq (z : List Char) :
    ∀ p ∈ splitNN z, splitNN p = [p] := by
  induction z using splitNN.induct with
  | case1 =>
    intro p hp
    rw [splitNN_nil] at hp
    rcases List.mem_singleton.mp hp with rfl
    exact splitNN_nil
  | case2 c =>
    intro p hp
    rw [splitNN_single] at hp
    rcases List.mem_singleton.mp hp with rfl
    exact splitNN_single c
  | case3 c d t h ih =>
    obtain ⟨rfl, rfl⟩ := h
    intro p hp
    rw [splitNN_cons2, if_pos ⟨rfl, rfl⟩] at hp
    rcases List.mem_cons.mp hp with rfl | hp2
    · exact splitNN_nil
    · exact ih p hp2
  | case4 c d t h ih =>
    intro p hp
    rw [splitNN_cons2, if_neg h] at hp
    cases hSeq : splitNN (d :: t) with
    | nil => exact absurd hSeq (splitNN_ne_nil _)
    | cons q qs =>
      rw [hSeq, consHead_cons] at hp
      rcases List.mem_cons.mp hp with rfl | hp2
      · have hq := ih q (by rw [hSeq]; exact List.mem_cons_self q qs)
        cases q with
        | nil => exact splitNN_single c
        | cons e r =>
          have he : ∃ r2, (e :: r : List Char) = d :: r2 := by
            rcases splitNN_cons_head d t hSeq with ⟨hnil, _⟩ | hr
            · cases hnil
            · exact hr
          rcases he with ⟨r2, hr2⟩
          rw [hr2]
          rw [hr2] at hq
          rw [splitNN_cons2, if_neg h, hq, consHead_cons]
      · exact ih p (by rw [hSeq]; exact List.mem_cons_of_mem q hp2)

/-- Whitespace-trim both ends (the JS `String.prototype.trim` step). -/
def trimChars (l : List Char) : List Char :=
  ((l.dropWhile Char.isWhitespace).reverse.dropWhile Char.isWhitespace).reverse

/-- The six characters of the `"data: "` record head. -/
def dataHead : List Char := ['d', 'a', 't', 'a', ':', ' ']

/-- One complete SSE part, as handled by the client loop: trim it; if it
starts with `"data: "`, parse the remainder as JSON (abstracted as
`parse`), yielding an event on success and nothing — a silent skip — on
parse failure or a non-`data:` part. -/
def recordEvent {α : Type _} (parse : List Char → Option α) (part : List Char) :
    Option α :=
  let line := trimChars part
  if line.take 6 = dataHead then parse (line.drop 6) else none

/-- The client reader loop of `downloadUserVideosStream`, one iteration
per received chunk: append the chunk to the buffer, split on `"\n\n"`,
keep the last part as the new buffer, and handle each complete part in
order.  Returns the events delivered to `onEvent`, in delivery order. -/
def processChunks {α : Type _} (parse : List Char → Option α) :
    List Char → List (List Char) → List α
  | _, [] => []
  | buf, c :: cs =>
    ((splitNN (buf ++ c)).dropLast.filterMap (recordEvent parse)) ++
      processChunks parse ((splitNN (buf ++ c)).getLast?.getD []) cs

/-- The `.catch` clause of `downloadUserVideosStream`: `onError` is
invoked only when the error's name is not `"AbortError"`. -/
def catchInvokesOnError (errName : String) : Bool :=
  errName != "AbortError"

theorem processChunks_correct {α : Type _} (parse : List Char → Option α) :
    ∀ (cs : List (List Char)) (buf : List Char), splitNN buf = [buf] →
      processChunks parse buf cs =
        ((splitNN (buf ++ cs.flatten)).dropLast).filterMap (recordEvent parse) := by
  intro cs
  induction cs with
  | nil =>
    intro buf hbuf
    rw [processChunks, List.flatten_nil, List.append_nil, hbuf]
    rfl
  | cons c cs ih =>
    intro buf hbuf
    rw [processChunks, List.flatten_cons, ← List.append_assoc,
      splitNN_append (buf ++ c) cs.flatten,
      dropLast_append_ne_nil _ _ (splitNN_ne_nil _), List.filterMap_append]
    congr 1
    refine ih _ ?_
    cases hL : (splitNN (buf ++ c)).getLast? with
    | none =>
      rw [List.getLast?_eq_none_iff] at hL
      exact absurd hL (splitNN_ne_nil _)
    | some p =>
      have hp : p ∈ splitNN (buf ++ c) := by
        rcases List.mem_getLast?_eq_getLast (l := splitNN (buf ++ c)) (x := p)
          (by rw [Option.mem_def, hL]) with ⟨hne, hpe⟩
        rw [hpe]
        exact List.getLast_mem hne
      simpa using splitNN_part_eq (buf ++ c) p hp

/-- C10: for every sequence of (decoded) chunks delivered to the client
stream reader, the events handed to `onEvent` are exactly — and in
stream order — the parses of the payloads of the complete
`"data: <payload>"` records of the concatenated stream, where a record is
complete when its terminating blank line has arrived: a record split
across chunk boundaries is buffered and delivered exactly once (never
partially, never dropped), unparseable payloads are skipped silently, and
an abort never invokes `onError` (the catch clause ignores
`AbortError`). -/
theorem sse_stream_parsing {α : Type _} (parse : List Char → Option α)
    (chunks : List (List Char)) :
    processChunks parse [] chunks =
      ((splitNN chunks.flatten).dropLast).filterMap (recordEvent parse) ∧
    catchInvokesOnError "AbortError" = false := by
  refine ⟨?_, rfl⟩
  rw [processChunks_correct parse chunks [] (by rw [splitNN_nil]),
    List.nil_append]

/-- Concrete chunk sequence for the C10 witness: a single `data:` record
split across two chunks, with its terminator itself split across the
second and third chunk. -/
def sseChunksW : List (List Char) :=
  [['d', 'a'], ['t', 'a', ':', ' ', '1', '\n'], ['\n', 'x']]

/-- Concrete parser for the C10 witness. -/
def parseW : List Char → Option Nat :=
  fun l => if l = ['1'] then some 1 else none

/-- Witness for C10: the record split across chunk boundaries — with the
blank-line terminator itself split — is delivered exactly once, and the
trailing incomplete record is withheld. -/
theorem sse_stream_parsing_witness :
    processChunks parseW [] sseChunksW = [1] := by
  have h := (sse_stream_parsing parseW sseChunksW).1
  exact h.trans (by decide)

/-- Witness for C9: cancelling after the first of three chunks leaves only
that chunk's token events and ends in a `done` event with the partial
count of the single submitted job. -/
theorem cancellation_behavior_witness :
    tokEvs (runCancelled ⟨1, 4⟩ cksW 1 (fun _ => true) [0]) =
      tokEvs (runStream ⟨1, 4⟩ (cksW.take 1)).evs ∧
    (runCancelled ⟨1, 4⟩ cksW 1 (fun _ => true) [0]).getLast? =
      some (Ev.done 1 0) := by
  have h := cancellation_behavior ⟨1, 4⟩ cksW 1 (fun _ => true) [0]
  refine ⟨h.2.1, ?_⟩
  have h3 := h.2.2
  rw [show countTrue (fun _ => true) (runStream ⟨1, 4⟩ (cksW.take 1)).sid = 1
      from by decide,
    show (runStream ⟨1, 4⟩ (cksW.take 1)).sid - 1 = 0 from by decide] at h3
  exact h3

/-- Witness for C1 at a concrete partition: with cap 2 the second bubble's
token payloads concatenate to its submitted text. -/
theorem alignment_invariant_witness :
    tokConcat 1 (runComplete ⟨1, 2⟩ cksW (fun i => i == 0) [1, 0]) =
      (finalTexts ⟨1, 2⟩ cksW).getD 1 [] := by
  exact alignment_invariant ⟨1, 2⟩ cksW (fun i => i == 0) [1, 0] 1

end Mahoupao
